import Mathlib

/-!
# Verification of the series-RC circuit simulator core

Shallow embedding of the core of `circuit_sim.py`: polyline geometry
(`polyline_lengths`, `position_dir_on_polyline`), the series-RC physics
model (`SeriesRCPhysics`), the electron particle system (`ElectronSystem`),
and the component layout (`component_centers_along_path`).

Python floats are modelled as real numbers.  A Python expression that can
raise an exception is modelled as an `Option`-valued function returning
`none` exactly when the Python code raises (`ZeroDivisionError` for float
division by zero, `IndexError` for an out-of-range list index).
-/

open Classical

noncomputable section

/-- A 2D point, as the `(x, y)` tuples of the Python source. -/
abbrev Point : Type := ℝ × ℝ

/-- `math.hypot dx dy = sqrt (dx^2 + dy^2)`. -/
def hypot (dx dy : ℝ) : ℝ := Real.sqrt (dx ^ 2 + dy ^ 2)

/-- Source `polyline_lengths` (line 10): Euclidean length of every
consecutive segment, `[hypot (pts[i+1]-pts[i]) for i in range(len(pts)-1)]`.
For lists of fewer than 2 points the Python range is empty and so is
this list. -/
def polyline_lengths : List Point → List ℝ
  | p1 :: p2 :: rest => hypot (p2.1 - p1.1) (p2.2 - p1.2) :: polyline_lengths (p2 :: rest)
  | _ => []

/-- Loop body of source `position_dir_on_polyline` (lines 18-35).
`i` is the enumeration index; the remaining list is the part of `seglens`
not yet traversed, the budget `s` already has the traversed lengths
subtracted.  The exhausted case is the `# fallback at end` block:
`pts[-2]` / `pts[-1]` raise `IndexError` when fewer than 2 points exist
(modelled by `none`), and the `or 1.0` guard replaces a zero length by 1. -/
def pdAux (pts : List Point) : ℕ → List ℝ → ℝ → Option (Point × Point)
  | _, [], _ =>
      if 2 ≤ pts.length then
        let p1 := pts.getD (pts.length - 2) (0, 0)
        let p2 := pts.getD (pts.length - 1) (0, 0)
        let Lr := hypot (p2.1 - p1.1) (p2.2 - p1.2)
        let L := if Lr = 0 then 1 else Lr
        some (p2, ((p2.1 - p1.1) / L, (p2.2 - p1.2) / L))
      else none
  | i, L :: rest, s =>
      if s ≤ L then
        match pts[i]?, pts[i + 1]? with
        | some p1, some p2 =>
          if L = 0 then some (p1, (1, 0))
          else some ((p1.1 + s / L * (p2.1 - p1.1), p1.2 + s / L * (p2.2 - p1.2)),
                     ((p2.1 - p1.1) / L, (p2.2 - p1.2) / L))
        | _, _ => none
      else pdAux pts (i + 1) rest (s - L)

/-- Source `position_dir_on_polyline` (line 13): position and tangent at
arc length `s` along the polyline.  Returns `some ((x, y), (ux, uy))`, or
`none` when the Python code would raise an `IndexError`. -/
def position_dir_on_polyline (pts : List Point) (seglens : List ℝ) (s : ℝ) :
    Option (Point × Point) :=
  pdAux pts 0 seglens s

/-- Source `Resistor` dataclass (line 70). -/
structure Resistor where
  R : ℝ
  name : String

/-- Source `Capacitor` dataclass (line 75). -/
structure Capacitor where
  C : ℝ
  name : String

/-- The state built by `SeriesRCPhysics.__init__` (lines 84-96).
`Req = none` models the Python sentinel `float("inf")` (empty resistor
list); for a non-empty list the sum of real resistances is finite, so
`some r` models a finite `Req`.  `Ceq = none` models Python `None`.
The field `tau` is not stored: the source sets `tau = Req * Ceq` whenever
`Ceq` is not `None`, and `current` reads it only after the finiteness
check on `Req`, so `current` below recomputes it as `r * c` there. -/
structure SeriesRCPhysics where
  V : ℝ
  Req : Option ℝ
  Ceq : Option ℝ

/-- Source `SeriesRCPhysics.__init__` (lines 84-96).  Returns `none` when
the construction raises: the generator `sum(1.0/c.C for c in capacitors)`
raises `ZeroDivisionError` exactly when some capacitance is 0 (and the
capacitor list is non-empty, which the existential already implies). -/
def mkSeriesRCPhysics (V : ℝ) (resistors : List Resistor) (capacitors : List Capacitor) :
    Option SeriesRCPhysics :=
  let Req : Option ℝ := if resistors = [] then none else some (resistors.map Resistor.R).sum
  if ∃ c ∈ capacitors, c.C = 0 then none
  else
    let Ceq : Option ℝ :=
      if capacitors = [] then none
      else
        let inv := (capacitors.map (fun c => 1 / c.C)).sum
        some (if 0 < inv then 1 / inv else 0)
    some ⟨V, Req, Ceq⟩

/-- Source `SeriesRCPhysics.current` (lines 98-106).  `Req = none` (the
`float("inf")` sentinel) fails `math.isfinite`; in the remaining branches
`tau = Req * Ceq` is recomputed as `r * c` (see `SeriesRCPhysics`). -/
def SeriesRCPhysics.current (p : SeriesRCPhysics) (t : ℝ) : ℝ :=
  match p.Req with
  | none => 0
  | some r =>
    if r ≤ 0 then 0
    else
      match p.Ceq with
      | none => p.V / r
      | some c =>
        let tau := r * c
        if tau ≤ 0 then 0 else p.V / r * Real.exp (-t / tau)

/-- Python float modulo `x % y` for `y ≠ 0`: `x - y * ⌊x / y⌋` (the result
carries the sign of `y`). -/
def pymod (x y : ℝ) : ℝ := x - y * ⌊x / y⌋

/-- The state of source `ElectronSystem` (lines 199-218); the turtle handle
of each electron is rendering-only, so an electron is just its arc-length
position `s`. -/
structure ElectronSystem where
  pts : List Point
  seglens : List ℝ
  totalL : ℝ
  electrons : List ℝ

/-- Source `ElectronSystem.__init__` (lines 200-212).  `rands` models the
successive outputs of `random.random()` (one per electron); each initial
position is `random.random() * totalL`.  `sum(self.seglens) or 1.0` yields
1.0 exactly when the sum is 0. -/
def mkElectronSystem (path_pts : List Point) (rands : List ℝ) : ElectronSystem :=
  let seglens := polyline_lengths path_pts
  let totalL := if seglens.sum = 0 then 1 else seglens.sum
  { pts := path_pts, seglens := seglens, totalL := totalL,
    electrons := rands.map (fun u => u * totalL) }

/-- Source `ElectronSystem.update` (lines 214-218): each position becomes
`(s + speed*dt) % totalL`; the subsequent `goto` is rendering-only. -/
def ElectronSystem.update (st : ElectronSystem) (dt speed : ℝ) : ElectronSystem :=
  { st with electrons := st.electrons.map (fun s => pymod (s + speed * dt) st.totalL) }

/-- Source `component_centers_along_path` (lines 224-235), with the
fractions explicit. -/
def component_centers_along_path (totalL : ℝ) (n_components : ℤ)
    (start_frac end_frac : ℝ) : List ℝ :=
  if n_components ≤ 0 then []
  else
    let a := totalL * start_frac
    let b := totalL * end_frac
    if n_components = 1 then [(a + b) / 2]
    else
      let step := (b - a) / ((n_components : ℝ) - 1)
      (List.range n_components.toNat).map (fun i : ℕ => a + (i : ℝ) * step)

/-- `component_centers_along_path` at its default fractions
`start_frac=0.08`, `end_frac=0.92` (line 224). -/
def component_centers_default (totalL : ℝ) (n_components : ℤ) : List ℝ :=
  component_centers_along_path totalL n_components (8 / 100) (92 / 100)

/-- The total length computed in `Canvas.run` (lines 310-311):
`totalL = sum(seglens) or 1.0` over the mid path. -/
def canvas_totalL (mid_pts : List Point) : ℝ :=
  let seglens := polyline_lengths mid_pts
  if seglens.sum = 0 then 1 else seglens.sum

/-- The per-tick particle speed of `Canvas.run` (lines 331-338):
`speed = k * abs(I) * speed_scale` with `k = 60.0`. -/
def tick_speed (I speed_scale : ℝ) : ℝ := 60 * |I| * speed_scale

/-! ## Basic lemmas -/

theorem hypot_nonneg (dx dy : ℝ) : 0 ≤ hypot dx dy := Real.sqrt_nonneg _

theorem polyline_lengths_nonneg (pts : List Point) :
    ∀ L ∈ polyline_lengths pts, 0 ≤ L := by
  induction pts with
  | nil => simp [polyline_lengths]
  | cons p rest ih =>
    cases rest with
    | nil => simp [polyline_lengths]
    | cons q rest2 =>
      intro L hL
      simp only [polyline_lengths, List.mem_cons] at hL
      rcases hL with h | h
      · exact h ▸ hypot_nonneg _ _
      · exact ih L h

theorem polyline_sum_nonneg (pts : List Point) : 0 ≤ (polyline_lengths pts).sum :=
  List.sum_nonneg (polyline_lengths_nonneg pts)

theorem pymod_eq_mul_fract (x y : ℝ) (hy : y ≠ 0) :
    pymod x y = y * Int.fract (x / y) := by
  unfold pymod Int.fract
  rw [mul_sub, mul_div_cancel₀ x hy]

theorem pymod_nonneg (x y : ℝ) (hy : 0 < y) : 0 ≤ pymod x y := by
  rw [pymod_eq_mul_fract x y hy.ne']
  exact mul_nonneg hy.le (Int.fract_nonneg _)

theorem pymod_lt (x y : ℝ) (hy : 0 < y) : pymod x y < y := by
  rw [pymod_eq_mul_fract x y hy.ne']
  calc y * Int.fract (x / y) < y * 1 :=
        (mul_lt_mul_left hy).mpr (Int.fract_lt_one _)
    _ = y := mul_one y

theorem mkElectronSystem_totalL_pos (pts : List Point) (rands : List ℝ) :
    0 < (mkElectronSystem pts rands).totalL := by
  by_cases h : (polyline_lengths pts).sum = 0
  · simp [mkElectronSystem, h]
  · have hlt := lt_of_le_of_ne (polyline_sum_nonneg pts) (Ne.symm h)
    simpa [mkElectronSystem, h] using hlt

/-- Explicit form of a successful `SeriesRCPhysics` construction (no
capacitance is 0, so no `ZeroDivisionError`). -/
theorem mkSeriesRCPhysics_eq_some (V : ℝ) (rs : List Resistor) (cs : List Capacitor)
    (h : ¬∃ c ∈ cs, c.C = 0) :
    mkSeriesRCPhysics V rs cs =
      some ⟨V, if rs = [] then none else some (rs.map Resistor.R).sum,
            if cs = [] then none
            else some (if 0 < (cs.map (fun c => 1 / c.C)).sum
                       then 1 / (cs.map (fun c => 1 / c.C)).sum else 0)⟩ := by
  simp only [mkSeriesRCPhysics]
  rw [if_neg h]

/-! ## C9: the total-length fallback -/

/-- C9: `totalLength` equals the sum of the path's segment lengths, except
when that raw sum is exactly 0, in which case it is 1.0; this holds both in
`ElectronSystem.__init__` and in the layout computation of `Canvas.run`. -/
theorem total_length_fallback (pts : List Point) (rands : List ℝ) :
    ((polyline_lengths pts).sum = 0 →
      (mkElectronSystem pts rands).totalL = 1 ∧ canvas_totalL pts = 1) ∧
    ((polyline_lengths pts).sum ≠ 0 →
      (mkElectronSystem pts rands).totalL = (polyline_lengths pts).sum ∧
      canvas_totalL pts = (polyline_lengths pts).sum) := by
  constructor <;> intro h <;> constructor <;> simp [mkElectronSystem, canvas_totalL, h]

/-- Witness for C9 at the concrete degenerate path `[(0,0), (0,0)]` (raw
sum of segment lengths 0, total length 1) and at `[(0,0), (3,4)]` (raw sum
5, total length 5). -/
theorem total_length_fallback_witness :
    (mkElectronSystem [((0 : ℝ), (0 : ℝ)), (0, 0)] []).totalL = 1 ∧
    canvas_totalL [((0 : ℝ), (0 : ℝ)), (0, 0)] = 1 ∧
    (mkElectronSystem [((0 : ℝ), (0 : ℝ)), (3, 4)] []).totalL = 5 := by
  have h0 : (polyline_lengths [((0 : ℝ), (0 : ℝ)), (0, 0)]).sum = 0 := by
    simp [polyline_lengths, hypot]
  have h5 : (polyline_lengths [((0 : ℝ), (0 : ℝ)), (3, 4)]).sum = 5 := by
    have h34 : hypot 3 4 = 5 := by
      unfold hypot
      rw [show (3 : ℝ) ^ 2 + (4 : ℝ) ^ 2 = 5 ^ 2 by norm_num]
      exact Real.sqrt_sq (by norm_num)
    simp [polyline_lengths, h34]
  refine ⟨((total_length_fallback _ []).1 h0).1, ((total_length_fallback _ []).1 h0).2, ?_⟩
  rw [((total_length_fallback _ []).2 (by rw [h5]; norm_num)).1, h5]

/-! ## C2: exceptions in `SeriesRCPhysics.__init__` -/

/-- C2 counterexample: constructing `SeriesRCPhysics` with a capacitor of
capacitance exactly 0 raises `ZeroDivisionError` in
`sum(1.0/c.C for c in capacitors)` (modelled by `none`), refuting the claim
that no combination of non-positive values raises. -/
theorem mk_physics_zero_capacitance_raises :
    mkSeriesRCPhysics 9 [] [⟨0, "C1"⟩] = none := by
  unfold mkSeriesRCPhysics
  rw [if_pos]
  exact ⟨⟨0, "C1"⟩, by simp, rfl⟩

/-- C2 amended: as long as no capacitance is exactly 0, construction
raises no exception for any voltage, any resistor list (empty or not, any
signs) and any capacitor list, and `current` is a total function on the
resulting state (every branch yields a defined real number). -/
theorem mk_physics_total_of_nonzero_C (V : ℝ) (rs : List Resistor) (cs : List Capacitor)
    (h : ∀ c ∈ cs, c.C ≠ 0) :
    ∃ p, mkSeriesRCPhysics V rs cs = some p ∧ ∀ t : ℝ, ∃ y : ℝ, p.current t = y := by
  refine ⟨_, mkSeriesRCPhysics_eq_some V rs cs ?_, fun t => ⟨_, rfl⟩⟩
  push_neg
  exact h

/-- Witness for the amended C2: a battery with one negative-capacitance
capacitor and no resistors constructs fine. -/
theorem mk_physics_total_of_nonzero_C_witness :
    ∃ p, mkSeriesRCPhysics 9 [] [⟨-1, "C1"⟩] = some p ∧
      ∀ t : ℝ, ∃ y : ℝ, p.current t = y := by
  refine mk_physics_total_of_nonzero_C 9 [] [⟨-1, "C1"⟩] ?_
  intro c hc
  rw [List.mem_singleton] at hc
  rw [hc]
  norm_num

/-! ## C5: electron positions stay in `[0, totalL)` -/

/-- C5: `update` maps each particle position `s` to
`(s + speed*dt) mod totalL`, preserves `totalL`, and every resulting
position lies in `[0, totalL)` for any `speed ≥ 0` and `dt ≥ 0`, however
far `speed*dt` exceeds `totalL`; since the constructed system always has
`totalL > 0`, this holds after every update. -/
theorem electron_update_range (pts : List Point) (rands : List ℝ) (st : ElectronSystem)
    (dt speed : ℝ) (hdt : 0 ≤ dt) (hspeed : 0 ≤ speed) (hpos : 0 < st.totalL) :
    0 < (mkElectronSystem pts rands).totalL ∧
    (st.update dt speed).totalL = st.totalL ∧
    (st.update dt speed).electrons =
      st.electrons.map (fun s => pymod (s + speed * dt) st.totalL) ∧
    ∀ s ∈ (st.update dt speed).electrons, 0 ≤ s ∧ s < st.totalL := by
  refine ⟨mkElectronSystem_totalL_pos pts rands, rfl, rfl, ?_⟩
  intro s hs
  simp only [ElectronSystem.update, List.mem_map] at hs
  obtain ⟨s0, -, rfl⟩ := hs
  exact ⟨pymod_nonneg _ _ hpos, pymod_lt _ _ hpos⟩

/-- Witness for C5: on the unit segment (total length 1) one electron at 0
advanced by `speed*dt = 3.5` (three full wraps plus a half) ends at `0.5`,
inside `[0, totalL)`. -/
theorem electron_update_range_witness :
    ((mkElectronSystem [((0 : ℝ), (0 : ℝ)), (1, 0)] [0]).update 1 (7 / 2)).electrons
        = [1 / 2] ∧
    (0 : ℝ) ≤ 1 / 2 ∧
    (1 / 2 : ℝ) < (mkElectronSystem [((0 : ℝ), (0 : ℝ)), (1, 0)] [0]).totalL := by
  have h10 : hypot (1 - 0) (0 - 0) = 1 := by
    unfold hypot
    rw [show ((1 : ℝ) - 0) ^ 2 + ((0 : ℝ) - 0) ^ 2 = 1 ^ 2 by norm_num]
    exact Real.sqrt_sq (by norm_num)
  have hseg : polyline_lengths [((0 : ℝ), (0 : ℝ)), (1, 0)] = [1] := by
    simp only [polyline_lengths]
    rw [h10]
  have htot : (mkElectronSystem [((0 : ℝ), (0 : ℝ)), (1, 0)] [0]).totalL = 1 := by
    simp only [mkElectronSystem, hseg, List.sum_cons, List.sum_nil, add_zero]
    norm_num
  have helec : (mkElectronSystem [((0 : ℝ), (0 : ℝ)), (1, 0)] [0]).electrons = [0] := by
    simp only [mkElectronSystem, hseg, List.sum_cons, List.sum_nil, add_zero,
      List.map_cons, List.map_nil, zero_mul]
  obtain ⟨-, -, hmap, hall⟩ :=
    electron_update_range [((0 : ℝ), (0 : ℝ)), (1, 0)] [0]
      (mkElectronSystem [((0 : ℝ), (0 : ℝ)), (1, 0)] [0]) 1 (7 / 2)
      (by norm_num) (by norm_num) (by rw [htot]; norm_num)
  have hfl : ⌊(0 + 7 / 2 * 1 : ℝ) / 1⌋ = 3 := by
    apply Int.floor_eq_iff.mpr
    constructor <;> norm_num
  have hupd : ((mkElectronSystem [((0 : ℝ), (0 : ℝ)), (1, 0)] [0]).update 1 (7 / 2)).electrons
      = [1 / 2] := by
    rw [hmap, helec, htot]
    simp only [List.map_cons, List.map_nil]
    unfold pymod
    rw [hfl]
    norm_num
  exact ⟨hupd, by norm_num, by rw [htot]; norm_num⟩

/-! ## C6: component centers along the path -/

/-- C6: with the default fractions `startFrac = 0.08`, `endFrac = 0.92`,
the layout returns `[]` for `n ≤ 0`; for `n = 1` the single value
`totalL * (0.08 + 0.92) / 2 = 0.5 * totalL`; and for `n ≥ 2` and
`totalL > 0` exactly `n` strictly increasing values with constant step
`(b - a) / (n - 1)` from `a = 0.08 * totalL` to `b = 0.92 * totalL`
inclusive. -/
theorem component_centers_spec (totalL : ℝ) (n : ℤ) :
    (n ≤ 0 → component_centers_default totalL n = []) ∧
    (n = 1 → component_centers_default totalL n
        = [(totalL * (8 / 100) + totalL * (92 / 100)) / 2] ∧
      (totalL * (8 / 100) + totalL * (92 / 100)) / 2
        = totalL * (8 / 100 + 92 / 100) / 2 ∧
      totalL * (8 / 100 + 92 / 100) / 2 = totalL / 2) ∧
    (2 ≤ n → 0 < totalL →
      (component_centers_default totalL n).length = n.toNat ∧
      (∀ i : ℕ, i < n.toNat →
        (component_centers_default totalL n).getD i 0
          = totalL * (8 / 100)
            + (i : ℝ) * ((totalL * (92 / 100) - totalL * (8 / 100)) / ((n : ℝ) - 1))) ∧
      (component_centers_default totalL n).getD 0 0 = totalL * (8 / 100) ∧
      (component_centers_default totalL n).getD (n.toNat - 1) 0 = totalL * (92 / 100) ∧
      (component_centers_default totalL n).Pairwise (· < ·)) := by
  refine ⟨?_, ?_, ?_⟩
  · intro h
    simp [component_centers_default, component_centers_along_path, h]
  · intro h
    subst h
    refine ⟨?_, by ring, by ring⟩
    norm_num [component_centers_default, component_centers_along_path]
  · intro h2 hpos
    have hn0 : ¬n ≤ 0 := by omega
    have hn1 : n ≠ 1 := by omega
    have hnR : (2 : ℝ) ≤ (n : ℝ) := by exact_mod_cast h2
    have hne : (n : ℝ) - 1 ≠ 0 := by linarith
    have hlist : component_centers_default totalL n
        = (List.range n.toNat).map
            (fun i : ℕ => totalL * (8 / 100)
              + (i : ℝ) * ((totalL * (92 / 100) - totalL * (8 / 100)) / ((n : ℝ) - 1))) := by
      simp only [component_centers_default, component_centers_along_path,
        if_neg hn0, if_neg hn1]
    have hget : ∀ i : ℕ, i < n.toNat →
        (component_centers_default totalL n).getD i 0
          = totalL * (8 / 100)
            + (i : ℝ) * ((totalL * (92 / 100) - totalL * (8 / 100)) / ((n : ℝ) - 1)) := by
      intro i hi
      rw [hlist, List.getD_eq_getElem _ _ (by simpa using hi)]
      simp
    have htn : 0 < n.toNat := by omega
    have hstep : 0 < (totalL * (92 / 100) - totalL * (8 / 100)) / ((n : ℝ) - 1) := by
      apply div_pos
      · nlinarith
      · linarith
    refine ⟨by rw [hlist]; simp, hget, ?_, ?_, ?_⟩
    · rw [hget 0 htn]
      norm_num
    · rw [hget (n.toNat - 1) (by omega)]
      have hcast : ((n.toNat - 1 : ℕ) : ℝ) = (n : ℝ) - 1 := by
        have h1 : (1 : ℕ) ≤ n.toNat := htn
        have h2' : ((n.toNat : ℕ) : ℝ) = (n : ℝ) := by
          exact_mod_cast
            congrArg (Int.cast : ℤ → ℝ) (Int.toNat_of_nonneg (by omega : (0 : ℤ) ≤ n))
        push_cast [Nat.cast_sub h1]
        rw [h2']
      rw [hcast]
      field_simp
      ring
    · rw [hlist]
      rw [List.pairwise_map]
      apply (List.pairwise_lt_range n.toNat).imp
      intro i j hij
      have hij' : (i : ℝ) < (j : ℝ) := by exact_mod_cast hij
      have := mul_lt_mul_of_pos_right hij' hstep
      linarith

/-- Witness for C6 at `totalL = 100`: `n = 0` gives `[]`, `n = 1` gives
`[50]`, and for `n = 3` the middle anchor evaluates to 50. -/
theorem component_centers_spec_witness :
    component_centers_default 100 0 = [] ∧
    component_centers_default 100 1 = [(100 * (8 / 100) + 100 * (92 / 100)) / 2] ∧
    (component_centers_default 100 3).getD 1 0 = 50 := by
  refine ⟨(component_centers_spec 100 0).1 (by norm_num),
          ((component_centers_spec 100 1).2.1 rfl).1, ?_⟩
  have h := ((component_centers_spec 100 3).2.2 (by norm_num) (by norm_num)).2.1 1
    (by norm_num)
  rw [h]
  norm_num

/-! ## C3: no fail-fast validation for short paths -/

/-- C3 counterexample: no `InvalidPathError` exists in the source.
Building the electron system from the single-point path `[(0,0)]`
proceeds (empty segment list, `totalL = 1.0` fallback) instead of
reporting an error; the failure only surfaces later, when a position
query hits the end fallback and `pts[-2]` raises `IndexError`
(modelled by `none`). -/
theorem short_path_no_fail_fast :
    (mkElectronSystem [((0 : ℝ), (0 : ℝ))] []).totalL = 1 ∧
    (mkElectronSystem [((0 : ℝ), (0 : ℝ))] []).seglens = [] ∧
    position_dir_on_polyline [((0 : ℝ), (0 : ℝ))]
      (polyline_lengths [((0 : ℝ), (0 : ℝ))]) 0 = none := by
  refine ⟨?_, ?_, ?_⟩
  · simp [mkElectronSystem, polyline_lengths]
  · simp [mkElectronSystem, polyline_lengths]
  · simp only [position_dir_on_polyline, polyline_lengths, pdAux]
    norm_num

/-- C3 amended: for every point list of fewer than 2 points, construction
proceeds with no error — the segment list is empty and the total length
falls back to 1.0 — and every later position query on such a path returns
the end-fallback `IndexError` (`pts[-2]`) instead of a point. -/
theorem short_path_proceeds (pts : List Point) (rands : List ℝ) (s : ℝ)
    (h : pts.length < 2) :
    polyline_lengths pts = [] ∧
    (mkElectronSystem pts rands).seglens = [] ∧
    (mkElectronSystem pts rands).totalL = 1 ∧
    position_dir_on_polyline pts (polyline_lengths pts) s = none := by
  have hpl : polyline_lengths pts = [] := by
    cases pts with
    | nil => rfl
    | cons p rest =>
      cases rest with
      | nil => rfl
      | cons q rest2 =>
        simp only [List.length_cons] at h
        omega
  refine ⟨hpl, by simp [mkElectronSystem, hpl], by simp [mkElectronSystem, hpl], ?_⟩
  rw [position_dir_on_polyline, hpl]
  simp only [pdAux]
  rw [if_neg (by omega)]

/-- Witness for the amended C3 at the empty point list. -/
theorem short_path_proceeds_witness :
    polyline_lengths ([] : List Point) = [] ∧
    (mkElectronSystem [] []).seglens = [] ∧
    (mkElectronSystem [] []).totalL = 1 ∧
    position_dir_on_polyline [] (polyline_lengths []) 0 = none :=
  short_path_proceeds [] [] 0 (by simp)

/-! ## C1: the case split of `current` -/

/-- The case split claimed for `current(t)`, written from the spec's
words: `Req` (sum of resistances) is infinite exactly when the resistor
list is empty, `Ceq` is undefined exactly when the capacitor list is
empty, and `tau = Req * Ceq`. -/
def claimCurrent (V : ℝ) (rs : List Resistor) (cs : List Capacitor) (t : ℝ) : ℝ :=
  let Req : ℝ := (rs.map Resistor.R).sum
  if rs = [] ∨ Req ≤ 0 then 0
  else if cs = [] then V / Req
  else
    let inv : ℝ := (cs.map (fun c => 1 / c.C)).sum
    let Ceq : ℝ := if 0 < inv then 1 / inv else 0
    let tau : ℝ := Req * Ceq
    if tau ≤ 0 then 0 else V / Req * Real.exp (-t / tau)

/-- C1: for every voltage and component lists for which construction
succeeds, `current(t)` of the constructed physics object follows exactly
the claimed case split (in particular it is 0 for every `t` whenever the
resistor list is empty). -/
theorem current_case_split (V : ℝ) (rs : List Resistor) (cs : List Capacitor)
    (p : SeriesRCPhysics) (hp : mkSeriesRCPhysics V rs cs = some p) (t : ℝ) :
    p.current t = claimCurrent V rs cs t := by
  have hex : ¬∃ c ∈ cs, c.C = 0 := by
    intro hex
    have hnone : mkSeriesRCPhysics V rs cs = none := by
      simp only [mkSeriesRCPhysics, if_pos hex]
    rw [hnone] at hp
    exact Option.noConfusion hp
  rw [mkSeriesRCPhysics_eq_some V rs cs hex] at hp
  injection hp with hp
  subst hp
  by_cases h0 : rs = []
  · simp [SeriesRCPhysics.current, claimCurrent, h0]
  · by_cases h1 : (rs.map Resistor.R).sum ≤ 0
    · simp [SeriesRCPhysics.current, claimCurrent, h0, h1]
    · by_cases h2 : cs = []
      · simp [SeriesRCPhysics.current, claimCurrent, h0, h1, h2]
      · simp [SeriesRCPhysics.current, claimCurrent, h0, h1, h2]

/-- Witness for C1: a purely resistive loop `V = 9`, `R = [3, 2, 5]` gives
the constant current `9 / 10` at `t = 2`. -/
theorem current_case_split_witness :
    ∃ p, mkSeriesRCPhysics 9 [⟨3, "R1"⟩, ⟨2, "R2"⟩, ⟨5, "R3"⟩] [] = some p ∧
      p.current 2 = 9 / 10 := by
  refine ⟨_, mkSeriesRCPhysics_eq_some 9 _ _ (by simp), ?_⟩
  rw [current_case_split 9 _ _ _ (mkSeriesRCPhysics_eq_some 9 _ _ (by simp)) 2]
  norm_num [claimCurrent]
  simp

/-! ## C4 and C10: behaviour of the RC transient -/

/-- Closed form of `current` in the genuine RC regime: finite `Req > 0`,
defined `Ceq`, `tau = Req * Ceq > 0`. -/
theorem current_formula (p : SeriesRCPhysics) (r c : ℝ) (hReq : p.Req = some r)
    (hr : 0 < r) (hCeq : p.Ceq = some c) (htau : 0 < r * c) (t : ℝ) :
    p.current t = p.V / r * Real.exp (-t / (r * c)) := by
  simp only [SeriesRCPhysics.current, hReq, hCeq]
  rw [if_neg (not_le.mpr hr), if_neg (not_le.mpr htau)]

/-- C4 counterexample: with `V = 0` the circuit `R = [1]`, `C = [1]` is an
RC circuit in the claim's sense (`Req = 1 > 0`, `tau = 1 > 0`), `t1 = 0 <
1 = t2`, yet `current(t2) < current(t1)` fails: the current is constantly
0, so it does not strictly decrease. -/
theorem rc_current_not_strictly_decreasing :
    mkSeriesRCPhysics 0 [⟨1, "R1"⟩] [⟨1, "C1"⟩] = some ⟨0, some 1, some 1⟩ ∧
    (0 : ℝ) < 1 ∧
    ¬((⟨0, some 1, some 1⟩ : SeriesRCPhysics).current 1
        < (⟨0, some 1, some 1⟩ : SeriesRCPhysics).current 0) := by
  refine ⟨?_, by norm_num, ?_⟩
  · rw [mkSeriesRCPhysics_eq_some 0 _ _ (by simp)]
    norm_num
  · rw [current_formula _ 1 1 rfl (by norm_num) rfl (by norm_num) 1,
      current_formula _ 1 1 rfl (by norm_num) rfl (by norm_num) 0]
    simp

/-- C4 amended: for a constructed RC circuit with finite `Req = r > 0`,
defined `Ceq = c` with `tau = r * c > 0` and **positive** voltage,
`current(0) = V / Req`, the current is strictly decreasing, and it tends
to 0 at infinity. -/
theorem rc_current_decay (V : ℝ) (rs : List Resistor) (cs : List Capacitor)
    (p : SeriesRCPhysics) (r c : ℝ)
    (hp : mkSeriesRCPhysics V rs cs = some p)
    (hReq : p.Req = some r) (hr : 0 < r)
    (hCeq : p.Ceq = some c) (htau : 0 < r * c) (hV : 0 < p.V) :
    p.current 0 = p.V / r ∧
    (∀ t1 t2 : ℝ, t1 < t2 → p.current t2 < p.current t1) ∧
    Filter.Tendsto (fun t => p.current t) Filter.atTop (nhds 0) := by
  have hcur : ∀ t, p.current t = p.V / r * Real.exp (-t / (r * c)) :=
    fun t => current_formula p r c hReq hr hCeq htau t
  have hVr : 0 < p.V / r := div_pos hV hr
  have hinv : 0 < (r * c)⁻¹ := inv_pos.mpr htau
  refine ⟨?_, ?_, ?_⟩
  · rw [hcur 0]
    simp
  · intro t1 t2 h12
    rw [hcur t1, hcur t2]
    apply mul_lt_mul_of_pos_left _ hVr
    apply Real.exp_lt_exp.mpr
    rw [div_eq_mul_inv, div_eq_mul_inv]
    exact mul_lt_mul_of_pos_right (by linarith) hinv
  · have h2 : Filter.Tendsto (fun t : ℝ => t / (r * c)) Filter.atTop Filter.atTop :=
      Filter.tendsto_id.atTop_div_const htau
    have h3 := Filter.tendsto_neg_atTop_atBot.comp h2
    have h1 : Filter.Tendsto (fun t : ℝ => -t / (r * c)) Filter.atTop Filter.atBot := by
      simpa [Function.comp_def, neg_div] using h3
    have h4 := Real.tendsto_exp_atBot.comp h1
    have h5 := Filter.Tendsto.const_mul (p.V / r) h4
    simp only [Function.comp_def, mul_zero] at h5
    simp only [hcur]
    exact h5

/-- Witness for the amended C4: `V = 1`, `R = [1]`, `C = [1]` gives
`current(0) = 1/1` and `current(1) < current(0)`. -/
theorem rc_current_decay_witness :
    (⟨1, some 1, some 1⟩ : SeriesRCPhysics).current 0 = 1 / 1 ∧
    (⟨1, some 1, some 1⟩ : SeriesRCPhysics).current 1
      < (⟨1, some 1, some 1⟩ : SeriesRCPhysics).current 0 := by
  obtain ⟨h1, h2, -⟩ :=
    rc_current_decay 1 [⟨1, "R1"⟩] [⟨1, "C1"⟩] ⟨1, some 1, some 1⟩ 1 1
      (by rw [mkSeriesRCPhysics_eq_some 1 _ _ (by simp)]; norm_num)
      rfl (by norm_num) rfl (by norm_num) (by norm_num)
  exact ⟨h1, h2 0 1 (by norm_num)⟩

/-- C10 counterexample: with `V = 0` (allowed by the claim's `V ≥ 0`),
the RC circuit `R = [1]`, `C = [1]` has `current(5) = V / Req` although
`5 ≠ 0`, refuting "equality to `V / Req` only at `t = 0`". -/
theorem current_bound_equality_not_only_at_zero :
    mkSeriesRCPhysics 0 [⟨1, "R1"⟩] [⟨1, "C1"⟩] = some ⟨0, some 1, some 1⟩ ∧
    (0 : ℝ) ≤ (⟨0, some 1, some 1⟩ : SeriesRCPhysics).V ∧
    (⟨0, some 1, some 1⟩ : SeriesRCPhysics).current 5
      = (⟨0, some 1, some 1⟩ : SeriesRCPhysics).V / 1 ∧
    (5 : ℝ) ≠ 0 := by
  refine ⟨?_, le_refl 0, ?_, by norm_num⟩
  · rw [mkSeriesRCPhysics_eq_some 0 _ _ (by simp)]
    norm_num
  · rw [current_formula _ 1 1 rfl (by norm_num) rfl (by norm_num) 5]
    simp

/-- C10 amended: for a constructed RC circuit with finite `Req = r > 0`,
`tau = r * c > 0` and **positive** voltage, `0 < current(t) ≤ V / Req`
for all `t ≥ 0` with equality exactly at `t = 0`; hence for a
non-negative `speed_scale` the derived particle speed
`k * |current(t)| * speed_scale` never exceeds
`k * (V / Req) * speed_scale` (`k = 60`). -/
theorem transient_current_bound (V : ℝ) (rs : List Resistor) (cs : List Capacitor)
    (p : SeriesRCPhysics) (r c : ℝ)
    (hp : mkSeriesRCPhysics V rs cs = some p)
    (hReq : p.Req = some r) (hr : 0 < r)
    (hCeq : p.Ceq = some c) (htau : 0 < r * c) (hV : 0 < p.V)
    (t : ℝ) (ht : 0 ≤ t) (ss : ℝ) (hss : 0 ≤ ss) :
    0 < p.current t ∧ p.current t ≤ p.V / r ∧
    (p.current t = p.V / r ↔ t = 0) ∧
    tick_speed (p.current t) ss ≤ 60 * (p.V / r) * ss := by
  have hcur := current_formula p r c hReq hr hCeq htau t
  have hVr : 0 < p.V / r := div_pos hV hr
  have hexp : -t / (r * c) ≤ 0 := by
    rw [div_nonpos_iff]
    right
    constructor <;> linarith
  have hpos : 0 < p.current t := by
    rw [hcur]
    exact mul_pos hVr (Real.exp_pos _)
  have hle : p.current t ≤ p.V / r := by
    rw [hcur]
    calc p.V / r * Real.exp (-t / (r * c)) ≤ p.V / r * 1 :=
          mul_le_mul_of_nonneg_left (Real.exp_le_one_iff.mpr hexp) hVr.le
      _ = p.V / r := mul_one _
  refine ⟨hpos, hle, ?_, ?_⟩
  · rw [hcur]
    constructor
    · intro he
      have h1 : Real.exp (-t / (r * c)) = 1 :=
        mul_left_cancel₀ hVr.ne' (he.trans (mul_one _).symm)
      have h2 : -t / (r * c) = 0 := (Real.exp_eq_one_iff _).mp h1
      rcases div_eq_zero_iff.mp h2 with h3 | h3
      · linarith
      · exact absurd h3 htau.ne'
    · intro he
      rw [he]
      simp
  · unfold tick_speed
    rw [abs_of_pos hpos]
    exact mul_le_mul_of_nonneg_right
      (mul_le_mul_of_nonneg_left hle (by norm_num)) hss

/-- Witness for the amended C10 at `V = 1`, `R = [1]`, `C = [1]`, `t = 1`,
`speed_scale = 2`. -/
theorem transient_current_bound_witness :
    0 < (⟨1, some 1, some 1⟩ : SeriesRCPhysics).current 1 ∧
    (⟨1, some 1, some 1⟩ : SeriesRCPhysics).current 1 ≤ 1 / 1 ∧
    tick_speed ((⟨1, some 1, some 1⟩ : SeriesRCPhysics).current 1) 2
      ≤ 60 * (1 / 1) * 2 := by
  obtain ⟨h1, h2, -, h4⟩ :=
    transient_current_bound 1 [⟨1, "R1"⟩] [⟨1, "C1"⟩] ⟨1, some 1, some 1⟩ 1 1
      (by rw [mkSeriesRCPhysics_eq_some 1 _ _ (by simp)]; norm_num)
      rfl (by norm_num) rfl (by norm_num) (by norm_num)
      1 (by norm_num) 2 (by norm_num)
  exact ⟨h1, h2, h4⟩

/-! ## C7 and C8: geometry of `position_dir_on_polyline` -/

theorem hypot_eq_zero {dx dy : ℝ} (h : hypot dx dy = 0) : dx = 0 ∧ dy = 0 := by
  have h1 : dx ^ 2 + dy ^ 2 = 0 :=
    (Real.sqrt_eq_zero (by positivity)).mp h
  have hdx : dx ^ 2 = 0 := by nlinarith [sq_nonneg dy]
  have hdy : dy ^ 2 = 0 := by nlinarith [sq_nonneg dx]
  exact ⟨(pow_eq_zero_iff two_ne_zero).mp hdx, (pow_eq_zero_iff two_ne_zero).mp hdy⟩

/-- The unit tangent of a non-degenerate segment has magnitude 1. -/
theorem unit_tangent_of_ne_zero {dx dy : ℝ} (h : hypot dx dy ≠ 0) :
    Real.sqrt ((dx / hypot dx dy) ^ 2 + (dy / hypot dx dy) ^ 2) = 1 := by
  have hnn : 0 ≤ hypot dx dy := hypot_nonneg dx dy
  have hpos : 0 < hypot dx dy := lt_of_le_of_ne hnn (Ne.symm h)
  have hsq : hypot dx dy ^ 2 = dx ^ 2 + dy ^ 2 := by
    unfold hypot
    rw [Real.sq_sqrt (by positivity)]
  have harg : (dx / hypot dx dy) ^ 2 + (dy / hypot dx dy) ^ 2 = 1 := by
    field_simp
    linarith [hsq]
  rw [harg, Real.sqrt_one]

/-- Element `i` of `polyline_lengths pts` is the Euclidean length of the
segment from `pts[i]` to `pts[i+1]`. -/
theorem polyline_lengths_get :
    ∀ (pts : List Point) (i : ℕ) (L : ℝ),
      (polyline_lengths pts)[i]? = some L →
      ∃ p1 p2, pts[i]? = some p1 ∧ pts[i + 1]? = some p2 ∧
        L = hypot (p2.1 - p1.1) (p2.2 - p1.2)
  | [], i, L, h => by simp [polyline_lengths] at h
  | [p], i, L, h => by simp [polyline_lengths] at h
  | p1 :: p2 :: rest, 0, L, h => by
      simp only [polyline_lengths, List.getElem?_cons_zero, Option.some.injEq] at h
      exact ⟨p1, p2, rfl, by simp, h.symm⟩
  | p1 :: p2 :: rest, i + 1, L, h => by
      simp only [polyline_lengths, List.getElem?_cons_succ] at h
      obtain ⟨q1, q2, hq1, hq2, hL⟩ := polyline_lengths_get (p2 :: rest) i L h
      exact ⟨q1, q2, by simpa using hq1, by simpa using hq2, hL⟩

/-- Walking the remaining segment lengths from index `i` with a budget
`0 ≤ s <` (sum of the remaining lengths) stops inside some segment `j` and
returns the convex interpolation of that segment's endpoints, with a unit
tangent unless the segment is degenerate, in which case the segment's
start point and the fallback tangent `(1, 0)` are returned. -/
theorem pdAux_spec (pts : List Point) (rest : List ℝ) :
    ∀ (i : ℕ) (s : ℝ), rest = (polyline_lengths pts).drop i →
      0 ≤ s → s < rest.sum →
      ∃ j p1 p2 u tg,
        pts[j]? = some p1 ∧ pts[j + 1]? = some p2 ∧ 0 ≤ u ∧ u ≤ 1 ∧
        pdAux pts i rest s
          = some ((p1.1 + u * (p2.1 - p1.1), p1.2 + u * (p2.2 - p1.2)), tg) ∧
        (Real.sqrt (tg.1 ^ 2 + tg.2 ^ 2) = 1 ∨
          ((polyline_lengths pts)[j]? = some 0 ∧ u = 0 ∧ p1 = p2 ∧ tg = (1, 0))) := by
  induction rest with
  | nil =>
    intro i s hdrop h0 hs
    simp only [List.sum_nil] at hs
    linarith
  | cons L rest2 ih =>
    intro i s hdrop h0 hs
    have hgetL : (polyline_lengths pts)[i]? = some L := by
      have h := List.getElem?_drop (polyline_lengths pts) i 0
      rw [← hdrop] at h
      simpa using h.symm
    have hdrop2 : rest2 = (polyline_lengths pts).drop (i + 1) := by
      have h := List.drop_drop 1 i (polyline_lengths pts)
      rw [← hdrop] at h
      simpa using h
    obtain ⟨p1, p2, hp1, hp2, hL⟩ := polyline_lengths_get pts i L hgetL
    have hLnn : 0 ≤ L := by rw [hL]; exact hypot_nonneg _ _
    by_cases hsL : s ≤ L
    · by_cases hL0 : L = 0
      · subst hL0
        have hs0 : s = 0 := le_antisymm hsL h0
        subst hs0
        have hp12 : p1 = p2 := by
          obtain ⟨hdx, hdy⟩ := hypot_eq_zero hL.symm
          have hx : p1.1 = p2.1 := by linarith
          have hy : p1.2 = p2.2 := by linarith
          exact Prod.ext hx hy
        refine ⟨i, p1, p2, 0, (1, 0), hp1, hp2, le_refl 0, zero_le_one, ?_,
          Or.inr ⟨hgetL, rfl, hp12, rfl⟩⟩
        simp only [pdAux, if_pos (le_refl (0 : ℝ)), hp1, hp2, if_pos rfl]
        norm_num
      · have hLpos : 0 < L := lt_of_le_of_ne hLnn (Ne.symm hL0)
        have hhyp0 : hypot (p2.1 - p1.1) (p2.2 - p1.2) ≠ 0 := by rw [← hL]; exact hL0
        refine ⟨i, p1, p2, s / L, ((p2.1 - p1.1) / L, (p2.2 - p1.2) / L), hp1, hp2,
          div_nonneg h0 hLnn, (div_le_one hLpos).mpr hsL, ?_, Or.inl ?_⟩
        · simp only [pdAux, if_pos hsL, hp1, hp2, if_neg hL0]
        · have := unit_tangent_of_ne_zero hhyp0
          rw [hL]
          exact this
    · push_neg at hsL
      have h0' : 0 ≤ s - L := by linarith
      have hs2 : s - L < rest2.sum := by
        simp only [List.sum_cons] at hs
        linarith
      obtain ⟨j, q1, q2, u, tg, h1, h2, h3, h4, h5, h6⟩ :=
        ih (i + 1) (s - L) hdrop2 h0' hs2
      refine ⟨j, q1, q2, u, tg, h1, h2, h3, h4, ?_, h6⟩
      simp only [pdAux, if_neg (not_le.mpr hsL)]
      exact h5

/-- C7 amended: for a path of at least two points and any `s` with
`0 ≤ s <` (raw sum of the segment lengths — the positive part of
`totalLength`, excluding the degenerate-path fallback regime),
`positionAt(s)` returns a convex combination of some segment's endpoints
together with a tangent of unit magnitude, except when `s` lands on a
zero-length segment, in which case it returns that segment's start point
with the fallback tangent `(1, 0)`. -/
theorem position_on_segment (pts : List Point) (s : ℝ) (hlen : 2 ≤ pts.length)
    (h0 : 0 ≤ s) (hs : s < (polyline_lengths pts).sum) :
    ∃ j p1 p2 u tg,
      pts[j]? = some p1 ∧ pts[j + 1]? = some p2 ∧ 0 ≤ u ∧ u ≤ 1 ∧
      position_dir_on_polyline pts (polyline_lengths pts) s
        = some ((p1.1 + u * (p2.1 - p1.1), p1.2 + u * (p2.2 - p1.2)), tg) ∧
      (Real.sqrt (tg.1 ^ 2 + tg.2 ^ 2) = 1 ∨
        ((polyline_lengths pts)[j]? = some 0 ∧ u = 0 ∧ p1 = p2 ∧ tg = (1, 0))) :=
  pdAux_spec pts (polyline_lengths pts) 0 s (List.drop_zero _).symm h0 hs

/-- Witness for the amended C7: on the single segment from `(0,0)` to
`(3,4)` at `s = 0` the returned tangent is `(3/5, 4/5)`, of unit
magnitude. -/
theorem position_on_segment_witness :
    (2 ≤ ([((0 : ℝ), (0 : ℝ)), (3, 4)] : List Point).length) ∧ (0 : ℝ) ≤ 0 ∧
    (0 : ℝ) < (polyline_lengths [((0 : ℝ), (0 : ℝ)), (3, 4)]).sum ∧
    (∃ j p1 p2 u tg,
      ([((0 : ℝ), (0 : ℝ)), (3, 4)] : List Point)[j]? = some p1 ∧
      ([((0 : ℝ), (0 : ℝ)), (3, 4)] : List Point)[j + 1]? = some p2 ∧
      0 ≤ u ∧ u ≤ 1 ∧
      position_dir_on_polyline [((0 : ℝ), (0 : ℝ)), (3, 4)]
          (polyline_lengths [((0 : ℝ), (0 : ℝ)), (3, 4)]) 0
        = some ((p1.1 + u * (p2.1 - p1.1), p1.2 + u * (p2.2 - p1.2)), tg) ∧
      (Real.sqrt (tg.1 ^ 2 + tg.2 ^ 2) = 1 ∨
        ((polyline_lengths [((0 : ℝ), (0 : ℝ)), (3, 4)])[j]? = some 0 ∧ u = 0 ∧
          p1 = p2 ∧ tg = (1, 0)))) := by
  have h34 : hypot ((3 : ℝ) - 0) ((4 : ℝ) - 0) = 5 := by
    unfold hypot
    rw [show ((3 : ℝ) - 0) ^ 2 + ((4 : ℝ) - 0) ^ 2 = 5 ^ 2 by norm_num]
    exact Real.sqrt_sq (by norm_num)
  have hsum : (polyline_lengths [((0 : ℝ), (0 : ℝ)), (3, 4)]).sum = 5 := by
    simp only [polyline_lengths, List.sum_cons, List.sum_nil, add_zero]
    exact h34
  exact ⟨by norm_num, le_refl 0, by rw [hsum]; norm_num,
    position_on_segment [((0 : ℝ), (0 : ℝ)), (3, 4)] 0 (by norm_num) (le_refl 0)
      (by rw [hsum]; norm_num)⟩

/-- C7 counterexample: on the degenerate path `[(0,0), (0,0)]` the raw
length sum is 0, so `totalLength` is the 1.0 fallback; for `s = 1/2`
(inside `[0, totalLength)`) the walk skips the zero-length segment
(`1/2 ≤ 0` fails) and ends in the end fallback, which returns the last
point with tangent `(0, 0)` — neither of unit magnitude nor the claimed
`(1, 0)` fallback. -/
theorem position_in_fallback_regime_zero_tangent :
    (mkElectronSystem [((0 : ℝ), (0 : ℝ)), (0, 0)] []).totalL = 1 ∧
    (0 : ℝ) ≤ 1 / 2 ∧ (1 / 2 : ℝ) < 1 ∧
    position_dir_on_polyline [((0 : ℝ), (0 : ℝ)), (0, 0)]
        (polyline_lengths [((0 : ℝ), (0 : ℝ)), (0, 0)]) (1 / 2)
      = some (((0 : ℝ), (0 : ℝ)), ((0 : ℝ), (0 : ℝ))) ∧
    Real.sqrt ((0 : ℝ) ^ 2 + (0 : ℝ) ^ 2) ≠ 1 ∧
    ((0 : ℝ), (0 : ℝ)) ≠ ((1 : ℝ), (0 : ℝ)) := by
  have h00 : hypot ((0 : ℝ) - 0) ((0 : ℝ) - 0) = 0 := by
    unfold hypot
    norm_num
  have hpl : polyline_lengths [((0 : ℝ), (0 : ℝ)), (0, 0)] = [0] := by
    simp only [polyline_lengths]
    rw [h00]
  refine ⟨?_, by norm_num, by norm_num, ?_, by norm_num, by simp [Prod.ext_iff]⟩
  · simp only [mkElectronSystem, hpl, List.sum_cons, List.sum_nil, add_zero]
    norm_num
  · rw [position_dir_on_polyline, hpl]
    norm_num [pdAux, List.getD, h00]

/-- If the budget `s` strictly exceeds the sum of the remaining
(non-negative) segment lengths, the walk exhausts every segment and lands
in the end fallback, whose value does not depend on the index or the
leftover budget. -/
theorem pdAux_overflow (pts : List Point) (rest : List ℝ) :
    ∀ (i : ℕ) (s : ℝ), (∀ x ∈ rest, 0 ≤ x) → rest.sum < s →
      pdAux pts i rest s = pdAux pts 0 [] 0 := by
  induction rest with
  | nil => intro i s _ _; rfl
  | cons L rest2 ih =>
    intro i s hnn hsum
    have hL : 0 ≤ L := hnn L (by simp)
    have hr2 : ∀ x ∈ rest2, 0 ≤ x := fun x hx => hnn x (by simp [hx])
    have hs2nn : 0 ≤ rest2.sum := List.sum_nonneg hr2
    simp only [List.sum_cons] at hsum
    have hns : ¬s ≤ L := not_le.mpr (by linarith)
    have hsum2 : rest2.sum < s - L := by linarith
    simp only [pdAux, if_neg hns]
    exact ih (i + 1) (s - L) hr2 hsum2

/-- C8 amended: when `s` exceeds the sum of all segment lengths (and the
path has at least 2 points, else the fallback itself raises `IndexError`),
the result clamps to the final path point; the returned tangent is the
unit tangent of the **final** segment when that segment is non-degenerate,
and the zero vector `(0, 0)` (displacement divided by the fallback length
1.0) when the final segment is degenerate — the source never looks back
for an earlier non-degenerate segment. -/
theorem position_overflow_clamps (pts : List Point) (s : ℝ)
    (hlen : 2 ≤ pts.length) (hs : (polyline_lengths pts).sum < s) :
    ∃ p1 p2 tg,
      pts[pts.length - 2]? = some p1 ∧ pts[pts.length - 1]? = some p2 ∧
      position_dir_on_polyline pts (polyline_lengths pts) s = some (p2, tg) ∧
      ((hypot (p2.1 - p1.1) (p2.2 - p1.2) ≠ 0 ∧
          tg = ((p2.1 - p1.1) / hypot (p2.1 - p1.1) (p2.2 - p1.2),
                (p2.2 - p1.2) / hypot (p2.1 - p1.1) (p2.2 - p1.2)) ∧
          Real.sqrt (tg.1 ^ 2 + tg.2 ^ 2) = 1) ∨
        (hypot (p2.1 - p1.1) (p2.2 - p1.2) = 0 ∧ tg = (0, 0))) := by
  have hofl := pdAux_overflow pts (polyline_lengths pts) 0 s
    (polyline_lengths_nonneg pts) hs
  rw [position_dir_on_polyline, hofl]
  have h2 : pts.length - 2 < pts.length := by omega
  have h1 : pts.length - 1 < pts.length := by omega
  set p1 := pts.getD (pts.length - 2) (0, 0) with hp1def
  set p2 := pts.getD (pts.length - 1) (0, 0) with hp2def
  have hp1 : pts[pts.length - 2]? = some p1 := by
    rw [hp1def, List.getD_eq_getElem _ _ h2]
    exact List.getElem?_eq_getElem h2
  have hp2 : pts[pts.length - 1]? = some p2 := by
    rw [hp2def, List.getD_eq_getElem _ _ h1]
    exact List.getElem?_eq_getElem h1
  by_cases hhyp : hypot (p2.1 - p1.1) (p2.2 - p1.2) = 0
  · obtain ⟨hdx, hdy⟩ := hypot_eq_zero hhyp
    refine ⟨p1, p2, (0, 0), hp1, hp2, ?_, Or.inr ⟨hhyp, rfl⟩⟩
    simp only [pdAux, if_pos hlen]
    rw [← hp1def, ← hp2def, if_pos hhyp, hdx, hdy]
    norm_num
  · refine ⟨p1, p2,
      ((p2.1 - p1.1) / hypot (p2.1 - p1.1) (p2.2 - p1.2),
       (p2.2 - p1.2) / hypot (p2.1 - p1.1) (p2.2 - p1.2)),
      hp1, hp2, ?_, Or.inl ⟨hhyp, rfl, unit_tangent_of_ne_zero hhyp⟩⟩
    simp only [pdAux, if_pos hlen]
    rw [← hp1def, ← hp2def, if_neg hhyp]

/-- Witness for the amended C8: on `[(0,0), (3,4)]` with `s = 6 > 5`, the
result clamps to `(3,4)` with the final segment's unit tangent
`(3/5, 4/5)`. -/
theorem position_overflow_clamps_witness :
    ∃ p1 p2 tg,
      ([((0 : ℝ), (0 : ℝ)), (3, 4)] : List Point)[0]? = some p1 ∧
      ([((0 : ℝ), (0 : ℝ)), (3, 4)] : List Point)[1]? = some p2 ∧
      position_dir_on_polyline [((0 : ℝ), (0 : ℝ)), (3, 4)]
          (polyline_lengths [((0 : ℝ), (0 : ℝ)), (3, 4)]) 6 = some (p2, tg) ∧
      ((hypot (p2.1 - p1.1) (p2.2 - p1.2) ≠ 0 ∧
          tg = ((p2.1 - p1.1) / hypot (p2.1 - p1.1) (p2.2 - p1.2),
                (p2.2 - p1.2) / hypot (p2.1 - p1.1) (p2.2 - p1.2)) ∧
          Real.sqrt (tg.1 ^ 2 + tg.2 ^ 2) = 1) ∨
        (hypot (p2.1 - p1.1) (p2.2 - p1.2) = 0 ∧ tg = (0, 0))) := by
  have h34 : hypot ((3 : ℝ) - 0) ((4 : ℝ) - 0) = 5 := by
    unfold hypot
    rw [show ((3 : ℝ) - 0) ^ 2 + ((4 : ℝ) - 0) ^ 2 = 5 ^ 2 by norm_num]
    exact Real.sqrt_sq (by norm_num)
  have hsum : (polyline_lengths [((0 : ℝ), (0 : ℝ)), (3, 4)]).sum = 5 := by
    simp only [polyline_lengths, List.sum_cons, List.sum_nil, add_zero]
    exact h34
  exact position_overflow_clamps [((0 : ℝ), (0 : ℝ)), (3, 4)] 6 (by norm_num)
    (by rw [hsum]; norm_num)

/-- C8 counterexample: on `[(0,0), (5,0), (5,0)]` with `s = 6` (exceeding
the total length 5), the code returns the final point with tangent
`(0, 0)`, although the last non-degenerate segment (the first one) has
unit tangent `(1, 0)`: the claimed "tangent of the last non-degenerate
segment" is not what the code computes. -/
theorem position_overflow_not_last_nondegenerate :
    position_dir_on_polyline [((0 : ℝ), (0 : ℝ)), (5, 0), (5, 0)]
        (polyline_lengths [((0 : ℝ), (0 : ℝ)), (5, 0), (5, 0)]) 6
      = some (((5 : ℝ), (0 : ℝ)), ((0 : ℝ), (0 : ℝ))) ∧
    ((5 : ℝ) - 0) / hypot ((5 : ℝ) - 0) ((0 : ℝ) - 0) = 1 ∧
    ((0 : ℝ) - 0) / hypot ((5 : ℝ) - 0) ((0 : ℝ) - 0) = 0 ∧
    ((0 : ℝ), (0 : ℝ)) ≠ ((1 : ℝ), (0 : ℝ)) := by
  have h50 : hypot ((5 : ℝ) - 0) ((0 : ℝ) - 0) = 5 := by
    unfold hypot
    rw [show ((5 : ℝ) - 0) ^ 2 + ((0 : ℝ) - 0) ^ 2 = 5 ^ 2 by norm_num]
    exact Real.sqrt_sq (by norm_num)
  have h00 : hypot ((5 : ℝ) - 5) ((0 : ℝ) - 0) = 0 := by
    unfold hypot
    norm_num
  have hpl : polyline_lengths [((0 : ℝ), (0 : ℝ)), (5, 0), (5, 0)] = [5, 0] := by
    simp only [polyline_lengths]
    rw [h50, h00]
  refine ⟨?_, by rw [h50]; norm_num, by rw [h50]; norm_num, by simp [Prod.ext_iff]⟩
  rw [position_dir_on_polyline, hpl]
  norm_num [pdAux, List.getD, h00]
